import Mathlib

/-!
Verification of the concurrent job-execution engine of `compress_images.py`
(repository TAPI): the credential (API-key) pool, the worker retry loop, the
idempotent persistence of completion state (sqlite table `processed_files`),
the work dispatcher, and the process entry point.

The Python source is embedded shallowly:

* The sqlite store is a list of recorded paths (`processed_files` rows);
  `is_file_processed` is the `SELECT 1 ... WHERE path = ?` membership test and
  `log_processed_file` is the `INSERT OR IGNORE` write.
* One call of the worker function `process_image` (source lines 93-113) is a
  structurally recursive function over the snapshot of the key queue, with the
  outbound HTTP call (`compress_image`) and the durability of the sqlite write
  turned into oracles `tf : String -> Bool` and `logOk : Bool`.  The function
  also returns the ordered trace of the observable events it performs.
* The concurrent execution of many `process_image` workers sharing the
  manager queue is a labelled transition system `Step` / `Exec` further below.
-/

/-- One row lookup in the sqlite store: `SELECT 1 FROM processed_files WHERE
path = ?` (source lines 41-48) returns a row exactly when `p` is recorded. -/
def is_file_processed (db : List String) (p : String) : Bool :=
  decide (p ∈ db)

/-- The sqlite write `INSERT OR IGNORE INTO processed_files (path) VALUES (?)`
(source lines 50-57): appends the row unless the primary key is present. -/
def log_processed_file (db : List String) (p : String) : List String :=
  if p ∈ db then db else db ++ [p]

/-- Operations this subsystem ever performs on the store: `setup_database`
(source lines 15-25, `CREATE TABLE IF NOT EXISTS`, which never removes rows of
an existing table) and the completion write `log_processed_file`.  No code
path of the repository deletes rows. -/
inductive StoreOp
  | setup
  | mark (p : String)
deriving DecidableEq

/-- Effect of one store operation on the recorded rows. -/
def applyStoreOp (db : List String) : StoreOp → List String
  | .setup => db
  | .mark p => log_processed_file db p

/-- Eligibility predicate of the dispatcher (source line 126):
`file.lower().endswith(('png', 'jpg', 'jpeg'))`, read as operations on the
character sequence of the file name: lowercase every character, then test for
any of the three suffixes (note the source checks the bare suffixes, without
a dot). -/
def has_image_ext (file : String) : Bool :=
  let cs := file.data.map Char.toLower
  "png".data.isSuffixOf cs || "jpg".data.isSuffixOf cs ||
    "jpeg".data.isSuffixOf cs

/-- The dispatcher loop of `process_directory` (source lines 123-131): keep
each discovered file that satisfies the eligibility predicate and is not
already recorded in the store.  The predicate is a parameter, instantiated by
the source with `has_image_ext`. -/
def select_items (elig : String → Bool) (db : List String)
    (files : List String) : List String :=
  files.filter (fun p => elig p && !(is_file_processed db p))

/-- Observable events of one worker call, in program order. -/
inductive Ev
  | take (k : String)
  | transformOk (k : String)
  | transformFail (k : String)
  | markCompleted (p : String)
  | storeWriteFail (p : String)
  | returnKey (k : String)
  | emptyObserved
deriving DecidableEq

/-- Result of one `process_image` call: the returned boolean, the store rows,
the keys remaining in (this worker's view of) the queue, and the event
trace. -/
structure WorkerResult where
  success : Bool
  db : List String
  pool : List String
  trace : List Ev
deriving DecidableEq

/-- The worker retry loop of `process_image` (source lines 93-113), run against
the snapshot `pool` of the shared key queue, FIFO (`get_nowait` from the
front, `put` to the back).  `tf k` is whether `compress_image` succeeds with
key `k`, `logOk` whether the sqlite write in `log_processed_file` succeeds.
Per iteration: an empty queue raises `Empty` and returns `False`; otherwise a
key is taken; if `compress_image` succeeds and the store write succeeds the
path is recorded, the key is returned to the queue and the call returns
`True`; any exception (transform failure, or store-write failure after a
successful transform) is caught by the single `except` clause at line 111,
the key is not returned (discarded) and the loop continues. -/
def process_image (tf : String → Bool) (logOk : Bool) (path : String)
    (db : List String) : List String → WorkerResult
  | [] => ⟨false, db, [], [.emptyObserved]⟩
  | k :: rest =>
    if tf k then
      if logOk then
        ⟨true, log_processed_file db path, rest ++ [k],
          [.take k, .transformOk k, .markCompleted path, .returnKey k]⟩
      else
        let r := process_image tf logOk path db rest
        ⟨r.success, r.db, r.pool,
          .take k :: .transformOk k :: .storeWriteFail path :: r.trace⟩
    else
      let r := process_image tf logOk path db rest
      ⟨r.success, r.db, r.pool, .take k :: .transformFail k :: r.trace⟩

/-- Whether an event is a `returnKey` (the `put` at source line 109). -/
def isRet : Ev → Bool
  | .returnKey _ => true
  | _ => false

/-- Whether an event is a `markCompleted` (the successful store write at
source line 108). -/
def isMark : Ev → Bool
  | .markCompleted _ => true
  | _ => false

/-- Checks that along the trace every event satisfying `trigger` is strictly
preceded by some event satisfying `guard`; `seen` records whether a `guard`
event has occurred already. -/
def precededB (trigger guard : Ev → Bool) : Bool → List Ev → Bool
  | _, [] => true
  | seen, e :: es => (!trigger e || seen) && precededB trigger guard (seen || guard e) es

/-- Every credential return is preceded by a completed store write. -/
def markBeforeRetB (tr : List Ev) : Bool := precededB isRet isMark false tr

/-- Every completed store write is preceded by a credential return. -/
def retBeforeMarkB (tr : List Ev) : Bool := precededB isMark isRet false tr

/-- Whether an event opens a loop iteration of the worker: each pass of the
`while True` loop performs exactly one `get_nowait`, which either yields a key
(`take`) or raises `Empty` (`emptyObserved`). -/
def isIter : Ev → Bool
  | .take _ => true
  | .emptyObserved => true
  | _ => false

/-- Number of iterations the retry loop ran, read off the event trace. -/
def iterCount (tr : List Ev) : Nat := tr.countP (fun e => isIter e)

/-- One full worker invocation including the pre-transformation step: the
call `resize_image(image_path)` at source line 97 sits before the `try` of
the retry loop and outside any handler, so when it raises (`preOk = false`)
the exception escapes `process_image` before any key is taken.  `Except.error`
is an exception escaping the worker. -/
def process_image_attempt (preOk : Bool) (tf : String → Bool) (logOk : Bool)
    (path : String) (db pool : List String) : Except String WorkerResult :=
  if preOk then .ok (process_image tf logOk path db pool) else .error path

/-- Outcome of a whole run of `process_directory` over the dispatched items:
the first uncaught worker exception if any (re-raised by `pool.map` in the
parent, so the run terminates abnormally exactly when `err` is `some`), the
final store rows and the final key queue. -/
structure RunOutcome where
  err : Option String
  db : List String
  pool : List String
deriving DecidableEq

/-- The engine part of `process_directory` (source lines 133-136): every
dispatched item is handed to a `process_image` worker.  A worker whose
pre-transformation step raises touches neither the store nor the key queue,
and its exception is re-raised by `pool.map` (the first one wins); the other
workers still run.  Modelled as the sequential linearization threading store
and queue through the workers in dispatch order. -/
def run_items (pre : String → Bool) (tf : String → String → Bool)
    (logOk : Bool) : List String → List String → List String → RunOutcome
  | db, pool, [] => ⟨none, db, pool⟩
  | db, pool, it :: rest =>
    match process_image_attempt (pre it) (tf it) logOk it db pool with
    | .error e =>
      let o := run_items pre tf logOk db pool rest
      ⟨some e, o.db, o.pool⟩
    | .ok r => run_items pre tf logOk r.db r.pool rest

/-- How the process terminates, as observed by the operating system. -/
inductive MainOutcome
  | usageExit (code : Nat)
  | uncaughtNameError (name : String)
deriving DecidableEq

/-- The `__main__` block (source lines 142-152).  With a wrong argument count
or a non-directory argument it calls `sys.exit(1)`.  Otherwise it executes
`process_directory(directory)` — but the name `directory` is bound nowhere in
module scope (the validated value lives in `directory_arg`), so evaluating
the argument raises an uncaught `NameError` and the interpreter exits with a
non-zero status before `process_directory` runs. -/
def main_model (argv : List String) (isdir : String → Bool) : MainOutcome :=
  if argv.length ≠ 2 then .usageExit 1
  else if !(isdir (argv.getD 1 "")) then .usageExit 1
  else .uncaughtNameError "directory"

/-! ### Concurrent execution model

`process_directory` (source lines 115-136) hands every dispatched item to a
`process_image` worker; the workers run in parallel and share exactly one
mutable object relevant to the credential claims, the manager queue
`api_keys_queue`.  The labelled transition system below interleaves the
workers at the granularity of their queue operations: `manager.Queue` is
sequentially consistent and each `get_nowait`/`put` is atomic.  Worker `i`
runs the retry loop for its own item; the store is orthogonal to the
credential claims and omitted here (it is modelled above). -/

/-- Position of one worker inside its retry loop. -/
inductive WStatus
  | ready
  | holding (k : String)
  | succeeded (k : String)
  | done (ok : Bool)
deriving DecidableEq

/-- The key a worker currently has checked out of the queue, if any. -/
def keyOf : WStatus → Option String
  | .holding k => some k
  | .succeeded k => some k
  | _ => none

/-- All keys currently checked out across the workers, one entry per worker
that holds one. -/
def heldKeys (ws : List WStatus) : List String := ws.filterMap keyOf

/-- Shared state: the manager queue (front = next `get_nowait`), the workers,
and the keys dropped by the `except` handler at source line 111 (never put
back by any code path). -/
structure EngineState where
  pool : List String
  workers : List WStatus
  discarded : List String
deriving DecidableEq

/-- Transition labels, recording which worker moved and with which key. -/
inductive Label
  | take (i : Nat) (k : String)
  | emptyObs (i : Nat)
  | transformOk (i : Nat) (k : String)
  | transformFail (i : Nat) (k : String)
  | storeFail (i : Nat) (k : String)
  | returnKey (i : Nat) (k : String)
deriving DecidableEq

/-- One atomic step of one worker, each mapped to its source line:
`take` is a successful `get_nowait` (line 101); `emptyObs` is `get_nowait`
raising `Empty`, upon which the worker abandons its item and returns `False`
(lines 102-104); `transformOk` is `compress_image` plus the store write both
succeeding (lines 107-108); `transformFail` is `compress_image` raising, and
`storeFail` is the store write raising after a successful transform — both
are caught by the handler at line 111, which drops the key and loops;
`returnKey` is the `put` at line 109 followed by `return True` (lines
109-110). -/
inductive Step : EngineState → Label → EngineState → Prop
  | take (s : EngineState) (i : Nat) (k : String) (rest : List String)
      (hw : s.workers.get? i = some .ready) (hp : s.pool = k :: rest) :
      Step s (.take i k) ⟨rest, s.workers.set i (.holding k), s.discarded⟩
  | emptyObs (s : EngineState) (i : Nat)
      (hw : s.workers.get? i = some .ready) (hp : s.pool = []) :
      Step s (.emptyObs i) ⟨[], s.workers.set i (.done false), s.discarded⟩
  | transformOk (s : EngineState) (i : Nat) (k : String)
      (hw : s.workers.get? i = some (.holding k)) :
      Step s (.transformOk i k) ⟨s.pool, s.workers.set i (.succeeded k), s.discarded⟩
  | transformFail (s : EngineState) (i : Nat) (k : String)
      (hw : s.workers.get? i = some (.holding k)) :
      Step s (.transformFail i k) ⟨s.pool, s.workers.set i .ready, k :: s.discarded⟩
  | storeFail (s : EngineState) (i : Nat) (k : String)
      (hw : s.workers.get? i = some (.holding k)) :
      Step s (.storeFail i k) ⟨s.pool, s.workers.set i .ready, k :: s.discarded⟩
  | returnKey (s : EngineState) (i : Nat) (k : String)
      (hw : s.workers.get? i = some (.succeeded k)) :
      Step s (.returnKey i k) ⟨s.pool ++ [k], s.workers.set i (.done true), s.discarded⟩

/-- Interleaved execution: a sequence of steps by arbitrary workers. -/
inductive Exec : EngineState → List Label → EngineState → Prop
  | nil (s : EngineState) : Exec s [] s
  | cons (s s₁ s₂ : EngineState) (l : Label) (ls : List Label)
      (h : Step s l s₁) (hx : Exec s₁ ls s₂) : Exec s (l :: ls) s₂

/-- The state right after `process_directory` filled the queue with the
fetched keys (source lines 118-121) and dispatched `n` items, none of which
has entered its retry loop yet. -/
def initState (keys : List String) (n : Nat) : EngineState :=
  ⟨keys, List.replicate n .ready, []⟩

/-- The multiset of keys the system still knows about, as a list: queue
content, checked-out keys, dropped keys. -/
def occ (s : EngineState) : List String :=
  s.pool ++ heldKeys s.workers ++ s.discarded

/-- The key a label permanently removes from circulation, if any (the two
paths through the `except` handler at source line 111). -/
def discardedKeyOf : Label → Option String
  | .transformFail _ k => some k
  | .storeFail _ k => some k
  | _ => none

/-- Whether a label is a successful `get_nowait` of key `c`. -/
def isTakeOf (c : String) : Label → Bool
  | .take _ k => k == c
  | _ => false

/-- Whether a label is a successful `get_nowait` of any key. -/
def isTakeAny : Label → Bool
  | .take _ _ => true
  | _ => false

/-- No resurrection, read off a label sequence: after any label that discards
key `c`, no later label takes `c` from the queue. -/
def noResurrectionB : List Label → Bool
  | [] => true
  | l :: ls =>
    (match discardedKeyOf l with
      | some c => ls.all (fun x => !isTakeOf c x)
      | none => true) && noResurrectionB ls

/-- Exhaustion halts dispatch, read off a label sequence: after any worker
observes the queue empty, no later label takes a key. -/
def noTakeAfterEmptyB : List Label → Bool
  | [] => true
  | l :: ls =>
    (match l with
      | .emptyObs _ => ls.all (fun x => !isTakeAny x)
      | _ => true) && noTakeAfterEmptyB ls

/-! ### Conservation of keys across steps

Every step moves keys between the queue, the workers and the discard set but
never duplicates or invents one: `occ` is invariant up to permutation. -/

lemma heldKeys_cons (w : WStatus) (ws : List WStatus) :
    heldKeys (w :: ws) = (keyOf w).toList ++ heldKeys ws := by
  cases w <;> simp [heldKeys, keyOf, List.filterMap_cons]

lemma heldKeys_replicate (n : Nat) :
    heldKeys (List.replicate n WStatus.ready) = [] := by
  induction n with
  | zero => rfl
  | succ m ih => simpa [List.replicate_succ, heldKeys_cons, keyOf] using ih

lemma heldKeys_set (ws : List WStatus) (i : Nat) (v w₀ : WStatus)
    (h : ws.get? i = some w₀) :
    List.Perm (heldKeys (ws.set i v) ++ (keyOf w₀).toList)
      ((keyOf v).toList ++ heldKeys ws) := by
  induction ws generalizing i with
  | nil => simp at h
  | cons a tl ih =>
    cases i with
    | zero =>
      rw [List.get?_cons_zero, Option.some_inj] at h
      subst h
      simp only [List.set_cons_zero, heldKeys_cons, List.append_assoc]
      exact List.perm_append_comm.append_left (keyOf v).toList
    | succ j =>
      rw [List.get?_cons_succ] at h
      simp only [List.set_cons_succ, heldKeys_cons, List.append_assoc]
      refine ((ih j h).append_left (keyOf a).toList).trans ?_
      simp only [← List.append_assoc]
      exact List.perm_append_comm.append_right (heldKeys tl)

lemma heldKeys_set_acquire (ws : List WStatus) (i : Nat) (k : String)
    (h : ws.get? i = some .ready) :
    List.Perm (heldKeys (ws.set i (.holding k))) (k :: heldKeys ws) := by
  simpa [keyOf] using heldKeys_set ws i (.holding k) .ready h

lemma heldKeys_set_abandon (ws : List WStatus) (i : Nat)
    (h : ws.get? i = some .ready) :
    List.Perm (heldKeys (ws.set i (.done false))) (heldKeys ws) := by
  simpa [keyOf] using heldKeys_set ws i (.done false) .ready h

lemma heldKeys_set_same (ws : List WStatus) (i : Nat) (k : String)
    (h : ws.get? i = some (.holding k)) :
    List.Perm (heldKeys (ws.set i (.succeeded k))) (heldKeys ws) := by
  have hs := heldKeys_set ws i (.succeeded k) (.holding k) h
  simp only [keyOf, Option.toList_some, List.singleton_append] at hs
  exact ((List.perm_append_singleton k _).symm.trans hs).cons_inv

lemma heldKeys_set_release (ws : List WStatus) (i : Nat) (k : String)
    (h : ws.get? i = some (.holding k)) :
    List.Perm (heldKeys (ws.set i .ready) ++ [k]) (heldKeys ws) := by
  simpa [keyOf] using heldKeys_set ws i .ready (.holding k) h

lemma heldKeys_set_finish (ws : List WStatus) (i : Nat) (k : String)
    (h : ws.get? i = some (.succeeded k)) :
    List.Perm (heldKeys (ws.set i (.done true)) ++ [k]) (heldKeys ws) := by
  simpa [keyOf] using heldKeys_set ws i (.done true) (.succeeded k) h

lemma step_occ_perm {s s' : EngineState} {l : Label} (h : Step s l s') :
    List.Perm (occ s') (occ s) := by
  cases h with
  | take i k rest hw hp =>
    have ha := heldKeys_set_acquire s.workers i k hw
    simp only [occ, hp, List.append_assoc, List.cons_append]
    exact ((ha.append_right s.discarded).append_left rest).trans List.perm_middle
  | emptyObs i hw hp =>
    have ha := heldKeys_set_abandon s.workers i hw
    simp only [occ, hp, List.append_assoc, List.nil_append]
    exact ha.append_right s.discarded
  | transformOk i k hw =>
    have ha := heldKeys_set_same s.workers i k hw
    simp only [occ, List.append_assoc]
    exact (ha.append_right s.discarded).append_left s.pool
  | transformFail i k hw =>
    have ha := heldKeys_set_release s.workers i k hw
    simp only [occ, List.append_assoc]
    refine List.Perm.append_left s.pool ?_
    simpa using ha.append_right s.discarded
  | storeFail i k hw =>
    have ha := heldKeys_set_release s.workers i k hw
    simp only [occ, List.append_assoc]
    refine List.Perm.append_left s.pool ?_
    simpa using ha.append_right s.discarded
  | returnKey i k hw =>
    have ha := heldKeys_set_finish s.workers i k hw
    simp only [occ, List.append_assoc, List.singleton_append]
    refine List.Perm.append_left s.pool ?_
    have h₂ : List.Perm (heldKeys (s.workers.set i (.done true)) ++
        (k :: s.discarded)) (heldKeys s.workers ++ s.discarded) := by
      simpa using ha.append_right s.discarded
    exact List.perm_middle.symm.trans h₂

lemma exec_occ_perm {s s' : EngineState} {ls : List Label}
    (h : Exec s ls s') : List.Perm (occ s') (occ s) := by
  induction h with
  | nil s => exact List.Perm.refl _
  | cons s s₁ s₂ l ls hstep hx ih => exact ih.trans (step_occ_perm hstep)

lemma exec_occ_nodup {s s' : EngineState} {ls : List Label}
    (h : Exec s ls s') (hn : (occ s).Nodup) : (occ s').Nodup :=
  (exec_occ_perm h).symm.nodup hn

lemma initState_occ (keys : List String) (n : Nat) :
    occ (initState keys n) = keys := by
  simp [occ, initState, heldKeys_replicate]

lemma step_discarded_subset {s s' : EngineState} {l : Label}
    (h : Step s l s') : s.discarded ⊆ s'.discarded := by
  cases h with
  | take i k rest hw hp => exact fun x hx => hx
  | emptyObs i hw hp => exact fun x hx => hx
  | transformOk i k hw => exact fun x hx => hx
  | transformFail i k hw => exact List.subset_cons_self k s.discarded
  | storeFail i k hw => exact List.subset_cons_self k s.discarded
  | returnKey i k hw => exact fun x hx => hx

/-- Once a key sits in the discard set, no later step can take it from the
queue: key conservation plus distinctness keep it out of the queue forever. -/
lemma no_take_of_discarded {c : String} {s sF : EngineState} {ls : List Label}
    (hx : Exec s ls sF) :
    (occ s).Nodup → c ∈ s.discarded →
      ls.all (fun l => !isTakeOf c l) = true := by
  induction hx with
  | nil s => intro _ _; rfl
  | cons s s₁ s₂ l ls hstep hx ih =>
    intro hnd hc
    have hnd₁ : (occ s₁).Nodup := (step_occ_perm hstep).symm.nodup hnd
    have hc₁ : c ∈ s₁.discarded := step_discarded_subset hstep hc
    rw [List.all_cons, Bool.and_eq_true]
    refine ⟨?_, ih hnd₁ hc₁⟩
    cases hstep with
    | take i k rest hw hp =>
      have hdisj : s.pool.Disjoint (heldKeys s.workers ++ s.discarded) :=
        List.disjoint_of_nodup_append (by simpa [occ, List.append_assoc] using hnd)
      have hk : k ∈ s.pool := by rw [hp]; exact List.mem_cons_self k rest
      have hkc : k ≠ c := by
        intro h
        exact hdisj hk (List.mem_append_right _ (h ▸ hc))
      simp [isTakeOf, hkc]
    | emptyObs i hw hp => rfl
    | transformOk i k hw => rfl
    | transformFail i k hw => rfl
    | storeFail i k hw => rfl
    | returnKey i k hw => rfl

lemma exec_cons_split {s s₂ : EngineState} {l : Label} {ls : List Label}
    (h : Exec s (l :: ls) s₂) : ∃ s₁, Step s l s₁ ∧ Exec s₁ ls s₂ :=
  match h with
  | .cons _ s₁ _ _ _ hstep hx => ⟨s₁, hstep, hx⟩

lemma exec_append_split {l₁ l₂ : List Label} :
    ∀ {s s₂ : EngineState}, Exec s (l₁ ++ l₂) s₂ →
      ∃ s₁, Exec s l₁ s₁ ∧ Exec s₁ l₂ s₂ := by
  induction l₁ with
  | nil => exact fun h => ⟨_, Exec.nil _, h⟩
  | cons l ls ih =>
    intro s s₂ h
    cases h with
    | cons _ sm _ _ _ hstep hx =>
      obtain ⟨s₁, h1, h2⟩ := ih hx
      exact ⟨s₁, Exec.cons _ _ _ _ _ hstep h1, h2⟩

/-! ### Facts about the sequential worker model -/

/-- When the store write always fails, no call of the worker ever changes the
recorded rows. -/
lemma process_image_db_of_logFail (tf : String → Bool) (path : String) :
    ∀ (pool db : List String), (process_image tf false path db pool).db = db := by
  intro pool
  induction pool with
  | nil => intro db; rfl
  | cons k rest ih =>
    intro db
    by_cases h : tf k
    · simp [process_image, h, ih db]
    · simp [process_image, h, ih db]

/-- The queue a worker call leaves behind only contains keys it started
with: the loop never adds a key it did not take from the queue first. -/
lemma process_image_pool_subset (tf : String → Bool) (logOk : Bool)
    (path : String) (db : List String) :
    ∀ pool : List String, (process_image tf logOk path db pool).pool ⊆ pool := by
  intro pool
  induction pool with
  | nil => intro x hx; simp [process_image] at hx
  | cons k rest ih =>
    by_cases htf : tf k
    · by_cases hl : logOk
      · subst hl
        simp only [process_image, htf, if_true]
        intro x hx
        rcases List.mem_append.1 hx with h | h
        · exact List.mem_cons_of_mem k h
        · simp only [List.mem_singleton] at h
          exact h ▸ List.mem_cons_self k rest
      · have hl' : logOk = false := by revert hl; cases logOk <;> simp
        subst hl'
        simp only [process_image, htf, if_true, if_false]
        exact fun x hx => List.mem_cons_of_mem k (ih hx)
    · simp only [process_image, htf, if_false]
      exact fun x hx => List.mem_cons_of_mem k (ih hx)

/-- Along every trace a worker can produce, any credential return is preceded
by the completed store write of the same attempt. -/
lemma precededB_process_image (tf : String → Bool) (logOk : Bool)
    (path : String) (db : List String) :
    ∀ (pool : List String) (seen : Bool),
      precededB isRet isMark seen (process_image tf logOk path db pool).trace = true := by
  intro pool
  induction pool with
  | nil => intro seen; simp [process_image, precededB, isRet, isMark]
  | cons k rest ih =>
    intro seen
    by_cases htf : tf k
    · by_cases hl : logOk
      · subst hl
        simp [process_image, htf, precededB, isRet, isMark]
      · have hl' : logOk = false := by revert hl; cases logOk <;> simp
        subst hl'
        simp [process_image, htf, precededB, isRet, isMark, ih]
    · simp [process_image, htf, precededB, isRet, isMark, ih]

/-- Splitting a list by a boolean predicate splits its length. -/
lemma length_filter_partition (q : String → Bool) (l : List String) :
    (l.filter q).length + (l.filter (fun a => !q a)).length = l.length := by
  induction l with
  | nil => rfl
  | cons a tl ih => cases hq : q a <;> simp [List.filter_cons, hq] <;> omega

/-- The dispatcher keeps exactly the eligible files and, among those, exactly
the ones the store does not record. -/
lemma select_items_eq (elig : String → Bool) (db files : List String) :
    select_items elig db files =
      (files.filter elig).filter (fun p => !is_file_processed db p) := by
  induction files with
  | nil => rfl
  | cons a tl ih =>
    cases he : elig a <;> cases hp : is_file_processed db a <;>
      simp [select_items, List.filter_cons, he, hp] <;>
      simpa [select_items] using ih

/-- If any dispatched item has a failing pre-transformation step, the run
ends with an uncaught exception. -/
lemma run_items_err_isSome (pre : String → Bool) (tf : String → String → Bool)
    (logOk : Bool) :
    ∀ (items db pool : List String) (it : String), it ∈ items →
      pre it = false → (run_items pre tf logOk db pool items).err.isSome = true := by
  intro items
  induction items with
  | nil => intro db pool it h; cases h
  | cons a rest ih =>
    intro db pool it hmem hpre
    by_cases ha : pre a = true
    · have hit : it ∈ rest := by
        rcases List.mem_cons.1 hmem with h | h
        · subst h; rw [ha] at hpre; cases hpre
        · exact h
      simp only [run_items, process_image_attempt, ha, if_true]
      exact ih _ _ it hit hpre
    · have ha' : pre a = false := by revert ha; cases pre a <;> simp
      simp [run_items, process_image_attempt, ha']

/-! ### The claims -/

/-- C1.  The claim says an invocation with exactly one argument naming an
existing directory runs the engine and terminates successfully.  The code
does not: the final statement `process_directory(directory)` (source line
152) references a name bound nowhere (the validated value is in
`directory_arg`), so the process dies with an uncaught `NameError` — a
non-zero exit before the engine runs — on every well-formed invocation. -/
theorem entry_point_raises_nameerror :
    main_model ["compress_images.py", "imgs"] (fun _ => true) =
      MainOutcome.uncaughtNameError "directory" := by decide

/-- C2, counterexample.  One key, the transform succeeds, the store write
fails: the worker ends with the key discarded (final queue empty), the item
unrecorded, and the item reported failed — the `except` handler at source
line 111 treated the store-write failure exactly like a transform failure
and threw the key away, contradicting the claim that the credential is never
discarded in this situation. -/
theorem store_write_failure_discards_key_ce :
    process_image (fun _ => true) false "p" [] ["k1"] =
      ⟨false, [], [],
        [.take "k1", .transformOk "k1", .storeWriteFail "p", .emptyObserved]⟩ := by
  decide

/-- C2, amended.  When the store write fails after a successful transform,
the worker behaves exactly as on a transform failure: the store is left
unchanged, the key used for the successful transform is discarded (it never
reappears in the queue), and the call continues with the remaining keys,
returning whatever processing the rest yields; the only distinction is the
exception recorded in the trace. -/
theorem store_write_failure_same_as_transform_failure
    (tf : String → Bool) (path : String) (db : List String) (k : String)
    (rest : List String) (h1 : tf k = true) (h2 : k ∉ rest) :
    (process_image tf false path db (k :: rest)).db = db ∧
    k ∉ (process_image tf false path db (k :: rest)).pool ∧
    (process_image tf false path db (k :: rest)).success =
      (process_image tf false path db rest).success ∧
    (process_image tf false path db (k :: rest)).trace =
      Ev.take k :: Ev.transformOk k :: Ev.storeWriteFail path ::
        (process_image tf false path db rest).trace := by
  have hred : process_image tf false path db (k :: rest) =
      ⟨(process_image tf false path db rest).success,
        (process_image tf false path db rest).db,
        (process_image tf false path db rest).pool,
        Ev.take k :: Ev.transformOk k :: Ev.storeWriteFail path ::
          (process_image tf false path db rest).trace⟩ := by
    simp [process_image, h1]
  rw [hred]
  exact ⟨process_image_db_of_logFail tf path rest db,
    fun hmem => h2 (process_image_pool_subset tf false path db rest hmem),
    rfl, rfl⟩

/-- C2, witness for the amended statement at a concrete input. -/
theorem store_write_failure_same_witness :
    (process_image (fun _ => true) false "p" [] ["k1", "k2"]).db = [] ∧
    "k1" ∉ (process_image (fun _ => true) false "p" [] ["k1", "k2"]).pool ∧
    (process_image (fun _ => true) false "p" [] ["k1", "k2"]).success =
      (process_image (fun _ => true) false "p" [] ["k2"]).success ∧
    (process_image (fun _ => true) false "p" [] ["k1", "k2"]).trace =
      Ev.take "k1" :: Ev.transformOk "k1" :: Ev.storeWriteFail "p" ::
        (process_image (fun _ => true) false "p" [] ["k2"]).trace :=
  store_write_failure_same_as_transform_failure (fun _ => true) "p" [] "k1"
    ["k2"] rfl (by decide)

/-- C3, counterexample.  A successful attempt: the trace is take, transform,
store write, key return — the store write (`log_processed_file`, source line
108) comes before the key return (`put`, source line 109), so Return does
not precede MarkCompleted as the claim states. -/
theorem return_after_mark_ce :
    (process_image (fun _ => true) true "p" [] ["k"]).success = true ∧
    (process_image (fun _ => true) true "p" [] ["k"]).trace =
      [.take "k", .transformOk "k", .markCompleted "p", .returnKey "k"] ∧
    retBeforeMarkB (process_image (fun _ => true) true "p" [] ["k"]).trace =
      false := by decide

/-- C3, amended.  On every successful attempt the order is the converse of
the claimed one: in every trace a worker can produce, the completed store
write precedes the credential return. -/
theorem mark_completed_precedes_return (tf : String → Bool) (logOk : Bool)
    (path : String) (db pool : List String) :
    markBeforeRetB (process_image tf logOk path db pool).trace = true :=
  precededB_process_image tf logOk path db pool false

/-- C4, counterexample.  A single item whose pre-transformation step
(`resize_image`, source line 97) raises: the run ends with an uncaught
exception (`err` is `some`), refuting the claim that a preprocess failure
never crashes the run. -/
theorem preprocess_failure_crashes_run_ce :
    run_items (fun _ => false) (fun _ _ => true) true [] ["k"] ["a"] =
      ⟨some "a", [], ["k"]⟩ := by decide

/-- C4, amended.  A failing pre-transformation step does abort only that
item's attempt before any credential is taken — the attempt ends in an
exception without ever reaching the take loop — but the exception is not
handled anywhere: it escapes the worker and the whole run terminates
abnormally when `pool.map` re-raises it, instead of never crashing. -/
theorem preprocess_failure_aborts_item_and_crashes_run
    (pre : String → Bool) (tf : String → String → Bool) (logOk : Bool)
    (db pool items : List String) (it : String)
    (hpre : pre it = false) (hmem : it ∈ items) :
    (run_items pre tf logOk db pool items).err.isSome = true ∧
    process_image_attempt (pre it) (tf it) logOk it db pool =
      Except.error it := by
  refine ⟨run_items_err_isSome pre tf logOk items db pool it hmem hpre, ?_⟩
  simp [process_image_attempt, hpre]

/-- C4, witness for the amended statement at a concrete input. -/
theorem preprocess_failure_witness :
    (run_items (fun s => !(s == "bad")) (fun _ _ => true) true [] ["k"]
      ["ok", "bad"]).err.isSome = true ∧
    process_image_attempt ((fun s : String => !(s == "bad")) "bad")
      ((fun _ _ => true) "bad") true "bad" [] ["k"] = Except.error "bad" :=
  preprocess_failure_aborts_item_and_crashes_run (fun s => !(s == "bad"))
    (fun _ _ => true) true [] ["k"] ["ok", "bad"] "bad" (by decide) (by decide)

/-- C5, counterexample.  One key, three dispatched items.  Worker 0 takes the
key; worker 1 then finds the queue empty — the code's only exhaustion
observation — and abandons its item; worker 0 finishes successfully and puts
the key back; worker 2 then takes the key and starts attempting.  So after a
worker observes exhaustion, an item still transitions from dispatched to
attempting: no process-wide stop condition exists in the code. -/
theorem take_after_exhaustion_observed_ce :
    Exec (initState ["k"] 3)
      [.take 0 "k", .emptyObs 1, .transformOk 0 "k", .returnKey 0 "k",
        .take 2 "k"]
      ⟨[], [.done true, .done false, .holding "k"], []⟩ ∧
    noTakeAfterEmptyB
      [.take 0 "k", .emptyObs 1, .transformOk 0 "k", .returnKey 0 "k",
        .take 2 "k"] = false := by
  constructor
  · refine Exec.cons _ ⟨[], [.holding "k", .ready, .ready], []⟩ _ _ _ ?_ ?_
    · exact Step.take _ 0 "k" [] rfl rfl
    refine Exec.cons _ ⟨[], [.holding "k", .done false, .ready], []⟩ _ _ _ ?_ ?_
    · exact Step.emptyObs _ 1 rfl rfl
    refine Exec.cons _ ⟨[], [.succeeded "k", .done false, .ready], []⟩ _ _ _ ?_ ?_
    · exact Step.transformOk _ 0 "k" rfl
    refine Exec.cons _ ⟨["k"], [.done true, .done false, .ready], []⟩ _ _ _ ?_ ?_
    · exact Step.returnKey _ 0 "k" rfl
    refine Exec.cons _ ⟨[], [.done true, .done false, .holding "k"], []⟩ _ _ _ ?_
      (Exec.nil _)
    · exact Step.take _ 2 "k" [] rfl rfl
  · decide

/-- C5, amended.  Observing the empty queue has no process-wide effect: the
step changes nothing but the observing worker itself, which abandons its own
item (`return False`, source lines 102-104); the queue, the discard set and
every other worker are untouched, and nothing prevents later takes once a
key is returned. -/
theorem empty_observation_is_local (s s' : EngineState) (i : Nat)
    (h : Step s (.emptyObs i) s') :
    s.pool = [] ∧ s'.pool = [] ∧ s'.discarded = s.discarded ∧
      s.workers.get? i = some .ready ∧
      s'.workers = s.workers.set i (.done false) :=
  match h with
  | .emptyObs _ _ hw hp => ⟨hp, rfl, rfl, hw, rfl⟩

/-- C5, witness for the amended statement at a concrete step. -/
theorem empty_observation_is_local_witness :
    (EngineState.mk [] [WStatus.ready] []).pool = [] ∧
    (EngineState.mk [] [WStatus.done false] []).pool = [] ∧
    (EngineState.mk [] [WStatus.done false] []).discarded =
      (EngineState.mk [] [WStatus.ready] []).discarded ∧
    (EngineState.mk [] [WStatus.ready] []).workers.get? 0 =
      some WStatus.ready ∧
    (EngineState.mk [] [WStatus.done false] []).workers =
      (EngineState.mk [] [WStatus.ready] []).workers.set 0
        (WStatus.done false) :=
  empty_observation_is_local ⟨[], [.ready], []⟩ ⟨[], [.done false], []⟩ 0
    (Step.emptyObs ⟨[], [.ready], []⟩ 0 rfl rfl)

/-- C6, counterexample.  The fetched key list may contain the same key value
twice (nothing deduplicates `api.txt`).  With initial queue containing the
value twice, a worker takes one copy, fails and discards it; its next
`get_nowait` hands out the second copy — a `Take` returning a value `c`
after `Discard(c)`, refuting the claim as stated (credentials are compared
by value). -/
theorem discarded_key_retaken_ce :
    Exec (initState ["k", "k"] 1)
      [.take 0 "k", .transformFail 0 "k", .take 0 "k"]
      ⟨[], [.holding "k"], ["k"]⟩ ∧
    noResurrectionB [.take 0 "k", .transformFail 0 "k", .take 0 "k"] =
      false := by
  constructor
  · refine Exec.cons _ ⟨["k"], [.holding "k"], []⟩ _ _ _ ?_ ?_
    · exact Step.take _ 0 "k" ["k"] rfl rfl
    refine Exec.cons _ ⟨["k"], [.ready], ["k"]⟩ _ _ _ ?_ ?_
    · exact Step.transformFail _ 0 "k" rfl
    refine Exec.cons _ ⟨[], [.holding "k"], ["k"]⟩ _ _ _ ?_ (Exec.nil _)
    · exact Step.take _ 0 "k" [] rfl rfl
  · decide

/-- C6, amended.  Provided the fetched keys are pairwise distinct, the claim
holds: in every interleaved execution, once a step discards key `c`
(either failure path through the handler at source line 111), no later step
takes `c` from the queue, under any schedule. -/
theorem no_resurrection_given_distinct_keys (keys : List String) (n : Nat)
    (pre rest : List Label) (d : Label) (c : String) (sF : EngineState)
    (hnd : keys.Nodup) (hd : discardedKeyOf d = some c)
    (hx : Exec (initState keys n) (pre ++ d :: rest) sF) :
    rest.all (fun l => !isTakeOf c l) = true := by
  obtain ⟨s₁, h1, h2⟩ := exec_append_split hx
  obtain ⟨sm, hstep, hx2⟩ := exec_cons_split h2
  have h0 : (occ (initState keys n)).Nodup := by
    rw [initState_occ]; exact hnd
  have hndm : (occ sm).Nodup :=
    (step_occ_perm hstep).symm.nodup (exec_occ_nodup h1 h0)
  have hcm : c ∈ sm.discarded := by
    cases hstep with
    | take i k rest2 hw hp => simp [discardedKeyOf] at hd
    | emptyObs i hw hp => simp [discardedKeyOf] at hd
    | transformOk i k hw => simp [discardedKeyOf] at hd
    | transformFail i k hw =>
      simp only [discardedKeyOf, Option.some_inj] at hd
      exact hd ▸ List.mem_cons_self k s₁.discarded
    | storeFail i k hw =>
      simp only [discardedKeyOf, Option.some_inj] at hd
      exact hd ▸ List.mem_cons_self k s₁.discarded
    | returnKey i k hw => simp [discardedKeyOf] at hd
  exact no_take_of_discarded hx2 hndm hcm

/-- C6, witness for the amended statement: two distinct keys, the first is
discarded after a failure, and indeed no later step takes it. -/
theorem no_resurrection_witness :
    [Label.take 0 "b"].all (fun l => !isTakeOf "a" l) = true :=
  no_resurrection_given_distinct_keys ["a", "b"] 1 [.take 0 "a"]
    [.take 0 "b"] (.transformFail 0 "a") "a" ⟨[], [.holding "b"], ["a"]⟩
    (by decide) rfl
    (by
      refine Exec.cons _ ⟨["b"], [.holding "a"], []⟩ _ _ _ ?_ ?_
      · exact Step.take _ 0 "a" ["b"] rfl rfl
      refine Exec.cons _ ⟨["b"], [.ready], ["a"]⟩ _ _ _ ?_ ?_
      · exact Step.transformFail _ 0 "a" rfl
      refine Exec.cons _ ⟨[], [.holding "b"], ["a"]⟩ _ _ _ ?_ (Exec.nil _)
      · exact Step.take _ 0 "b" [] rfl rfl)

/-- C7.  `MarkCompleted` is idempotent — writing the same path twice leaves
the store exactly as writing it once (the `INSERT OR IGNORE` at source line
55) — and `IsCompleted` is monotone: once a path is recorded, no sequence of
operations this subsystem performs on the store (`setup_database` and
completion writes) ever makes the lookup report it unrecorded again. -/
theorem store_mark_idempotent_and_monotone :
    (∀ (db : List String) (p : String),
      log_processed_file (log_processed_file db p) p = log_processed_file db p) ∧
    (∀ (db : List String) (p : String) (ops : List StoreOp),
      is_file_processed db p = true →
        is_file_processed (ops.foldl applyStoreOp db) p = true) := by
  constructor
  · intro db p
    by_cases h : p ∈ db
    · simp [log_processed_file, h]
    · simp [log_processed_file, h]
  · intro db p ops
    induction ops generalizing db with
    | nil => intro h; simpa using h
    | cons op rest ih =>
      intro h
      rw [List.foldl_cons]
      refine ih _ ?_
      cases op with
      | setup => exact h
      | mark q =>
        have hp : p ∈ db := by simpa [is_file_processed] using h
        have hmem : p ∈ applyStoreOp db (.mark q) := by
          by_cases hq : q ∈ db
          · simpa [applyStoreOp, log_processed_file, hq] using hp
          · simp only [applyStoreOp, log_processed_file, hq, if_neg,
              not_false_iff, if_false]
            exact List.mem_append_left _ hp
        simpa [is_file_processed] using hmem

/-- C7, witness: a recorded path stays recorded across later operations. -/
theorem store_mark_monotone_witness :
    is_file_processed
      ([StoreOp.mark "b", StoreOp.setup, StoreOp.mark "a"].foldl applyStoreOp
        ["a"]) "a" = true :=
  store_mark_idempotent_and_monotone.2 ["a"] "a"
    [StoreOp.mark "b", StoreOp.setup, StoreOp.mark "a"] (by decide)

/-- C8.  The dispatcher dispatches exactly the discovered items that satisfy
the eligibility predicate and are not recorded completed; when `N` of the
discovered eligible items are already recorded, exactly
(number of eligible items − N) are dispatched. -/
theorem dispatcher_dispatches_exactly (elig : String → Bool)
    (db files : List String) (N : Nat)
    (hN : ((files.filter elig).filter
      (fun p => is_file_processed db p)).length = N) :
    (∀ p, p ∈ select_items elig db files ↔
      p ∈ files ∧ elig p = true ∧ is_file_processed db p = false) ∧
    (select_items elig db files).length = (files.filter elig).length - N := by
  constructor
  · intro p
    simp [select_items, List.mem_filter, Bool.and_eq_true, Bool.not_eq_true',
      and_assoc]
  · rw [select_items_eq]
    have hpart := length_filter_partition (fun p => is_file_processed db p)
      (files.filter elig)
    rw [hN] at hpart
    omega

/-- C8, witness at a concrete store and discovered set: one of the two
eligible files is recorded, exactly the other is dispatched. -/
theorem dispatcher_dispatches_exactly_witness :
    ("c.jpg" ∈ select_items has_image_ext ["a.png"]
        ["a.png", "b.txt", "c.jpg"] ↔
      "c.jpg" ∈ ["a.png", "b.txt", "c.jpg"] ∧
        has_image_ext "c.jpg" = true ∧
        is_file_processed ["a.png"] "c.jpg" = false) ∧
    (select_items has_image_ext ["a.png"] ["a.png", "b.txt", "c.jpg"]).length =
      (["a.png", "b.txt", "c.jpg"].filter has_image_ext).length - 1 :=
  ⟨(dispatcher_dispatches_exactly has_image_ext ["a.png"]
      ["a.png", "b.txt", "c.jpg"] 1 (by decide)).1 "c.jpg",
    (dispatcher_dispatches_exactly has_image_ext ["a.png"]
      ["a.png", "b.txt", "c.jpg"] 1 (by decide)).2⟩

/-- C9, counterexample.  With the same key value fetched twice (nothing
deduplicates `api.txt`), two workers can take one copy each and concurrently
hold — and use against the external service — the same credential value,
refuting the claim as stated (credentials are compared by value). -/
theorem double_issue_duplicate_keys_ce :
    Exec (initState ["k", "k"] 2) [.take 0 "k", .take 1 "k"]
      ⟨[], [.holding "k", .holding "k"], []⟩ ∧
    heldKeys [WStatus.holding "k", WStatus.holding "k"] = ["k", "k"] ∧
    ¬ (["k", "k"] : List String).Nodup := by
  refine ⟨?_, by decide, by decide⟩
  refine Exec.cons _ ⟨["k"], [.holding "k", .ready], []⟩ _ _ _ ?_ ?_
  · exact Step.take _ 0 "k" ["k"] rfl rfl
  refine Exec.cons _ ⟨[], [.holding "k", .holding "k"], []⟩ _ _ _ ?_ (Exec.nil _)
  · exact Step.take _ 1 "k" [] rfl rfl

/-- C9, amended.  Provided the fetched keys are pairwise distinct, the claim
holds in every reachable state of every schedule: the checked-out keys are
pairwise distinct (no two workers hold the same credential at once), and no
checked-out key is simultaneously available in the queue (a taken credential
cannot be handed to anyone else before it is returned). -/
theorem no_double_issue_given_distinct_keys (keys : List String) (n : Nat)
    (ls : List Label) (s : EngineState) (hnd : keys.Nodup)
    (hx : Exec (initState keys n) ls s) :
    (heldKeys s.workers).Nodup ∧
      (heldKeys s.workers).all (fun k => !s.pool.contains k) = true := by
  have h0 : (occ (initState keys n)).Nodup := by
    rw [initState_occ]; exact hnd
  have hs : (occ s).Nodup := exec_occ_nodup hx h0
  have hs' : (s.pool ++ (heldKeys s.workers ++ s.discarded)).Nodup := by
    simpa [occ, List.append_assoc] using hs
  have hdisj := List.disjoint_of_nodup_append hs'
  refine ⟨hs'.of_append_right.of_append_left, ?_⟩
  rw [List.all_eq_true]
  intro k hk
  have hknp : k ∉ s.pool := fun hp =>
    hdisj hp (List.mem_append_left s.discarded hk)
  simp [hknp]

/-- C9, witness: after one take from a two-key pool, the held keys are
pairwise distinct and not in the queue. -/
theorem no_double_issue_witness :
    (heldKeys (EngineState.mk ["b"] [WStatus.holding "a"] []).workers).Nodup ∧
      (heldKeys (EngineState.mk ["b"] [WStatus.holding "a"] []).workers).all
        (fun k =>
          !(EngineState.mk ["b"] [WStatus.holding "a"] []).pool.contains k) =
        true :=
  no_double_issue_given_distinct_keys ["a", "b"] 1 [.take 0 "a"]
    ⟨["b"], [.holding "a"], []⟩ (by decide)
    (Exec.cons _ ⟨["b"], [.holding "a"], []⟩ _ _ _
      (Step.take _ 0 "a" ["b"] rfl rfl) (Exec.nil _))

/-- C10.  The worker retry loop terminates: read off any trace the loop can
produce, the number of iterations (each opened by one `get_nowait`) is at
most one more than the number of keys in the queue snapshot it started
from — each non-final iteration permanently removes one key. -/
theorem retry_loop_iteration_bound (tf : String → Bool) (logOk : Bool)
    (path : String) (db : List String) :
    ∀ pool : List String,
      iterCount (process_image tf logOk path db pool).trace ≤
        pool.length + 1 := by
  intro pool
  induction pool with
  | nil => simp [process_image, iterCount, isIter]
  | cons k rest ih =>
    by_cases htf : tf k
    · by_cases hl : logOk
      · subst hl
        have hred : (process_image tf true path db (k :: rest)).trace =
            [Ev.take k, Ev.transformOk k, Ev.markCompleted path,
              Ev.returnKey k] := by
          simp [process_image, htf]
        simp [iterCount, hred, isIter, List.countP_cons]
      · have hl' : logOk = false := by revert hl; cases logOk <;> simp
        subst hl'
        have hred : (process_image tf false path db (k :: rest)).trace =
            Ev.take k :: Ev.transformOk k :: Ev.storeWriteFail path ::
              (process_image tf false path db rest).trace := by
          simp [process_image, htf]
        have hih := ih
        simp [iterCount, hred, List.countP_cons, isIter] at hih ⊢
        omega
    · have hred : (process_image tf logOk path db (k :: rest)).trace =
          Ev.take k :: Ev.transformFail k ::
            (process_image tf logOk path db rest).trace := by
        simp [process_image, htf]
      have hih := ih
      simp [iterCount, hred, List.countP_cons, isIter] at hih ⊢
      omega

